import Mathlib

/-!
Shallow embedding of the two source pieces of this repository:

* the React data-shaping utilities (`useImages`, `filterVideos`,
  `useSelectedTags`) — pure functions over in-memory data;
* the YouTube description updater script (`update-yt.mjs`) — its pure
  decision logic: candidate discovery, track-index construction and the
  `updateYTDesc` update step.

JavaScript strings are embedded as `List Char`, JS `undefined` results of
out-of-range indexing as `Option`, and a JS `TypeError` (calling a method
on `undefined`) as `Except`.  All definitions are computable.
-/

namespace CodingTrain

/-! ## JavaScript string primitives -/

/-- JS `String.prototype.split(sep)` for a one-character separator:
`"".split(c) = [""]`, separators at the ends produce empty segments. -/
def splitOnChar (sep : Char) : List Char → List (List Char)
  | [] => [[]]
  | c :: cs =>
    if c = sep then
      [] :: splitOnChar sep cs
    else
      match splitOnChar sep cs with
      | [] => [[c]]
      | t :: ts => (c :: t) :: ts

/-- JS `String.prototype.replace('%20', ' ')`: only the FIRST occurrence of
`%20` is replaced by a space. -/
def replaceFirst20 : List Char → List Char
  | [] => []
  | c :: cs =>
    if ('%' :: '2' :: '0' :: []).isPrefixOf (c :: cs) then
      ' ' :: cs.drop 2
    else
      c :: replaceFirst20 cs

/-- Whether the string contains an occurrence of `%20`. -/
def contains20 : List Char → Bool
  | [] => false
  | c :: cs => (('%' :: '2' :: '0' :: []).isPrefixOf (c :: cs)) || contains20 cs

theorem splitOnChar_ne_nil (sep : Char) (l : List Char) : splitOnChar sep l ≠ [] := by
  cases l with
  | nil => simp [splitOnChar]
  | cons c cs =>
    rw [splitOnChar]
    split
    · simp
    · cases h : splitOnChar sep cs <;> simp

theorem splitOnChar_not_mem (sep : Char) (l : List Char) (h : sep ∉ l) :
    splitOnChar sep l = [l] := by
  induction l with
  | nil => rfl
  | cons c cs ih =>
    simp only [List.mem_cons, not_or] at h
    rw [splitOnChar, if_neg (fun hh => h.1 hh.symm), ih h.2]

theorem splitOnChar_append (sep : Char) (a b : List Char) (h : sep ∉ a) :
    splitOnChar sep (a ++ sep :: b) = a :: splitOnChar sep b := by
  induction a with
  | nil => simp [splitOnChar]
  | cons c cs ih =>
    simp only [List.mem_cons, not_or] at h
    rw [List.cons_append, splitOnChar, if_neg (fun hh => h.1 hh.symm), ih h.2]

theorem replaceFirst20_of_not_contains (l : List Char) (h : contains20 l = false) :
    replaceFirst20 l = l := by
  induction l with
  | nil => rfl
  | cons c cs ih =>
    rw [contains20, Bool.or_eq_false_iff] at h
    rw [replaceFirst20, if_neg (by simp [h.1]), ih h.2]

theorem replaceFirst20_append (a b : List Char) (h : contains20 a = false) :
    replaceFirst20 (a ++ '%' :: '2' :: '0' :: b) = a ++ ' ' :: b := by
  induction a with
  | nil => simp [replaceFirst20, List.isPrefixOf]
  | cons c cs ih =>
    rw [contains20, Bool.or_eq_false_iff] at h
    rw [List.cons_append, replaceFirst20]
    rw [if_neg]
    · rw [ih h.2]; simp
    · intro hpre
      have h1 := h.1
      -- the prefix test on `c :: cs ++ …` agrees with the one on `c :: cs`
      -- unless `cs` is too short; but then the appended part starts with
      -- `'%'`, which cannot continue the pattern, so both tests fail.
      cases cs with
      | nil => simp [List.isPrefixOf] at hpre
      | cons c1 cs1 =>
        cases cs1 with
        | nil => simp [List.isPrefixOf] at hpre
        | cons c2 cs2 =>
          simp [List.isPrefixOf] at hpre h1
          exact h1 hpre.1 hpre.2.1 hpre.2.2

/-! ## `useSelectedTags` (hooks file)

```js
export const useSelectedTags = (pathname) => {
  const splittedString = pathname.replace('%20', ' ').split('/');
  const filterString =
    splittedString[2] && splittedString[2].includes('+')
      ? splittedString[2]
      : 'lang:all+topic:all';
  const [languageFilter, topicFilter] = filterString.split('+');
  return [languageFilter.split(':')[1], topicFilter.split(':')[1]];
};
```

`splittedString[2]` may be `undefined` (→ `Option`); `x.split(':')[1]` may be
`undefined`, which flows into the returned pair; calling `.split` on an
`undefined` destructuring component would raise a `TypeError` (→ `Except`).
Note `splittedString[2] && …` is falsy exactly when the segment is absent or
empty, and an empty segment never contains `'+'`, so the `Option`/`includes`
test below matches JS truthiness. -/
def filterStringOf (splittedString : List (List Char)) : List Char :=
  match splittedString[2]? with
  | some seg => if seg.contains '+' then seg else "lang:all+topic:all".data
  | none => "lang:all+topic:all".data

/-- The destructuring `const [languageFilter, topicFilter] = filterString.split('+')`
followed by `return [languageFilter.split(':')[1], topicFilter.split(':')[1]]`. -/
def tagPair (filterString : List Char) :
    Except String (Option (List Char) × Option (List Char)) :=
  match (splitOnChar '+' filterString)[0]? with
  | none => .error "TypeError: languageFilter is undefined"
  | some languageFilter =>
    match (splitOnChar '+' filterString)[1]? with
    | none => .error "TypeError: topicFilter is undefined"
    | some topicFilter =>
      .ok ((splitOnChar ':' languageFilter)[1]?, (splitOnChar ':' topicFilter)[1]?)

/-- The whole of `useSelectedTags`. -/
def useSelectedTags (pathname : List Char) :
    Except String (Option (List Char) × Option (List Char)) :=
  tagPair (filterStringOf (splitOnChar '/' (replaceFirst20 pathname)))

/-- `useSelectedTags` with the `replace('%20', ' ')` step already performed —
the parsing pipeline applied to the post-replacement pathname. -/
def useSelectedTagsPost (s : List Char) :
    Except String (Option (List Char) × Option (List Char)) :=
  tagPair (filterStringOf (splitOnChar '/' s))

/-! ### Generic membership helpers -/

theorem not_mem_append_of {α : Type} {x : α} {A B : List α}
    (hA : x ∉ A) (hB : x ∉ B) : x ∉ A ++ B := by
  intro hm
  rcases List.mem_append.mp hm with h | h
  · exact hA h
  · exact hB h

theorem not_mem_cons_of {α : Type} {x c : α} {L : List α}
    (h1 : x ≠ c) (h2 : x ∉ L) : x ∉ c :: L := by
  intro hm
  rcases List.mem_cons.mp hm with h | h
  · exact h1 h
  · exact h2 h

theorem contains20_eq_false_of_not_mem (l : List Char) (h : '%' ∉ l) :
    contains20 l = false := by
  induction l with
  | nil => rfl
  | cons c cs ih =>
    simp only [List.mem_cons, not_or] at h
    have hb : ('%' == c) = false := beq_eq_false_iff_ne.mpr h.1
    rw [contains20, Bool.or_eq_false_iff]
    exact ⟨by simp [List.isPrefixOf, hb], ih h.2⟩

/-! ### Key computation lemmas for `useSelectedTags` -/

theorem splitOnChar_length_ge_two (sep : Char) (l : List Char) (h : sep ∈ l) :
    2 ≤ (splitOnChar sep l).length := by
  induction l with
  | nil => cases h
  | cons c cs ih =>
    rw [splitOnChar]
    by_cases hc : c = sep
    · rw [if_pos hc]
      have h1 : 0 < (splitOnChar sep cs).length :=
        List.length_pos.mpr (splitOnChar_ne_nil sep cs)
      simp only [List.length_cons]
      omega
    · rw [if_neg hc]
      have hmem : sep ∈ cs := by
        rcases List.mem_cons.mp h with h1 | h2
        · exact absurd h1.symm hc
        · exact h2
      have h2 := ih hmem
      cases hsp : splitOnChar sep cs with
      | nil => exact absurd hsp (splitOnChar_ne_nil sep cs)
      | cons t ts =>
        rw [hsp] at h2
        simpa using h2

theorem plus_mem_filterStringOf (ss : List (List Char)) :
    '+' ∈ filterStringOf ss := by
  cases h : ss[2]? with
  | none => rw [filterStringOf, h]; decide
  | some seg =>
    rw [filterStringOf, h]
    show '+' ∈ if seg.contains '+' = true then seg else "lang:all+topic:all".data
    by_cases hc : seg.contains '+' = true
    · rw [if_pos hc]
      exact List.elem_iff.mp hc
    · rw [if_neg hc]
      decide

theorem tagPair_ok (fs : List Char) (h : '+' ∈ fs) :
    ∃ r, tagPair fs = Except.ok r := by
  have hlen := splitOnChar_length_ge_two '+' fs h
  rw [tagPair]
  cases hsp : splitOnChar '+' fs with
  | nil => exact absurd hsp (splitOnChar_ne_nil '+' fs)
  | cons a rest =>
    cases rest with
    | nil => rw [hsp] at hlen; simp at hlen
    | cons b rest' =>
      simp only [List.getElem?_cons_zero, List.getElem?_cons_succ]
      exact ⟨_, rfl⟩

/-! ### Claims C1, C4, C9 -/

/-- C1 (amended): `useSelectedTags` extracts the `lang:<value>+topic:<value>`
filter token from the path segment at index 2 after splitting the pathname on
`'/'` — i.e. the segment right after the first one, as in
`"/x/lang:en+topic:math"`; the spec's example `"/x/y/lang:en+topic:math"`
places the token at index 3, so it is NOT extracted there (see the
counterexample).  Here we prove the index-2 behaviour in general: for any
well-formed components, parsing `"/<seg1>/lang:<l>+topic:<t>"` yields the
pair `(l, t)`. -/
theorem useSelectedTags_extracts_segment_two
    (seg1 l t : List Char)
    (h1 : '/' ∉ seg1) (h2 : '%' ∉ seg1)
    (h3 : '+' ∉ l) (h4 : ':' ∉ l) (h5 : '/' ∉ l) (h6 : '%' ∉ l)
    (h7 : '+' ∉ t) (h8 : ':' ∉ t) (h9 : '/' ∉ t) (h10 : '%' ∉ t) :
    useSelectedTags
      ('/' :: (seg1 ++ '/' ::
        ((['l', 'a', 'n', 'g'] ++ ':' :: l) ++ '+' :: (['t', 'o', 'p', 'i', 'c'] ++ ':' :: t))))
      = Except.ok (some l, some t) := by
  have hAs : '%' ∉ (['l', 'a', 'n', 'g'] ++ ':' :: l) :=
    not_mem_append_of (by decide) (not_mem_cons_of (by decide) h6)
  have hBs : '%' ∉ (['t', 'o', 'p', 'i', 'c'] ++ ':' :: t) :=
    not_mem_append_of (by decide) (not_mem_cons_of (by decide) h10)
  have hseg2 : '%' ∉ ((['l', 'a', 'n', 'g'] ++ ':' :: l) ++ '+' ::
      (['t', 'o', 'p', 'i', 'c'] ++ ':' :: t)) :=
    not_mem_append_of hAs (not_mem_cons_of (by decide) hBs)
  have hpath : '%' ∉ ('/' :: (seg1 ++ '/' ::
      ((['l', 'a', 'n', 'g'] ++ ':' :: l) ++ '+' :: (['t', 'o', 'p', 'i', 'c'] ++ ':' :: t)))) :=
    not_mem_cons_of (by decide) (not_mem_append_of h2 (not_mem_cons_of (by decide) hseg2))
  have hrep := replaceFirst20_of_not_contains _ (contains20_eq_false_of_not_mem _ hpath)
  have hslash2 : '/' ∉ ((['l', 'a', 'n', 'g'] ++ ':' :: l) ++ '+' ::
      (['t', 'o', 'p', 'i', 'c'] ++ ':' :: t)) :=
    not_mem_append_of (not_mem_append_of (by decide) (not_mem_cons_of (by decide) h5))
      (not_mem_cons_of (by decide)
        (not_mem_append_of (by decide) (not_mem_cons_of (by decide) h9)))
  have hsplitslash : splitOnChar '/' ('/' :: (seg1 ++ '/' ::
      ((['l', 'a', 'n', 'g'] ++ ':' :: l) ++ '+' :: (['t', 'o', 'p', 'i', 'c'] ++ ':' :: t)))) =
      [[], seg1, (['l', 'a', 'n', 'g'] ++ ':' :: l) ++ '+' ::
        (['t', 'o', 'p', 'i', 'c'] ++ ':' :: t)] := by
    rw [splitOnChar, if_pos rfl, splitOnChar_append _ _ _ h1, splitOnChar_not_mem _ _ hslash2]
  have hplusmem : '+' ∈ ((['l', 'a', 'n', 'g'] ++ ':' :: l) ++ '+' ::
      (['t', 'o', 'p', 'i', 'c'] ++ ':' :: t)) :=
    List.mem_append_right _ (List.mem_cons_self _ _)
  have hfs : filterStringOf [[], seg1, (['l', 'a', 'n', 'g'] ++ ':' :: l) ++ '+' ::
      (['t', 'o', 'p', 'i', 'c'] ++ ':' :: t)] =
      (['l', 'a', 'n', 'g'] ++ ':' :: l) ++ '+' :: (['t', 'o', 'p', 'i', 'c'] ++ ':' :: t) := by
    rw [filterStringOf]
    show (if ((['l', 'a', 'n', 'g'] ++ ':' :: l) ++ '+' ::
        (['t', 'o', 'p', 'i', 'c'] ++ ':' :: t)).contains '+' = true then _ else _) = _
    rw [if_pos (List.elem_iff.mpr hplusmem)]
    rfl
  have hplussplit : splitOnChar '+' ((['l', 'a', 'n', 'g'] ++ ':' :: l) ++ '+' ::
      (['t', 'o', 'p', 'i', 'c'] ++ ':' :: t)) =
      [['l', 'a', 'n', 'g'] ++ ':' :: l, ['t', 'o', 'p', 'i', 'c'] ++ ':' :: t] := by
    rw [splitOnChar_append _ _ _
        (not_mem_append_of (by decide) (not_mem_cons_of (by decide) h3)),
      splitOnChar_not_mem _ _
        (not_mem_append_of (by decide) (not_mem_cons_of (by decide) h7))]
  have hlang : (splitOnChar ':' (['l', 'a', 'n', 'g'] ++ ':' :: l))[1]? = some l := by
    rw [splitOnChar_append _ _ _ (by decide), splitOnChar_not_mem _ _ h4]
    rfl
  have htopic : (splitOnChar ':' (['t', 'o', 'p', 'i', 'c'] ++ ':' :: t))[1]? = some t := by
    rw [splitOnChar_append _ _ _ (by decide), splitOnChar_not_mem _ _ h8]
    rfl
  rw [useSelectedTags, hrep, hsplitslash, hfs, tagPair, hplussplit]
  show Except.ok ((splitOnChar ':' (['l', 'a', 'n', 'g'] ++ ':' :: l))[1]?,
    (splitOnChar ':' (['t', 'o', 'p', 'i', 'c'] ++ ':' :: t))[1]?) = _
  rw [hlang, htopic]

/-- C1 witness: the amended claim at the concrete input `"/x/lang:en+topic:math"`. -/
theorem useSelectedTags_extracts_segment_two_witness :
    useSelectedTags "/x/lang:en+topic:math".data
      = Except.ok (some "en".data, some "math".data) :=
  useSelectedTags_extracts_segment_two ['x'] "en".data "math".data
    (by decide) (by decide) (by decide) (by decide) (by decide)
    (by decide) (by decide) (by decide) (by decide) (by decide)

/-- C1 counterexample: on the spec's example `"/x/y/lang:en+topic:math"` the
segment at index 2 is `"y"`, which contains no `'+'`, so the default
`lang:all+topic:all` applies and the result is `("all", "all")`, not
`("en", "math")`. -/
theorem useSelectedTags_c1_counterexample :
    useSelectedTags "/x/y/lang:en+topic:math".data
        = Except.ok (some "all".data, some "all".data) ∧
      useSelectedTags "/x/y/lang:en+topic:math".data
        ≠ Except.ok (some "en".data, some "math".data) := by
  refine ⟨rfl, fun h => ?_⟩
  have h2 := (show useSelectedTags "/x/y/lang:en+topic:math".data
      = Except.ok (some "all".data, some "all".data) from rfl).symm.trans h
  exact absurd (Except.ok.inj h2) (by decide)

/-- C4 (amended): `useSelectedTags` never raises a runtime failure — for
EVERY pathname it returns normally.  A malformed filter segment that contains
`'+'` but lacks the `lang:`/`topic:` prefixes yields a pair of `undefined`
(`none`) components instead of an exception, because in JavaScript
`String.prototype.split` never throws and out-of-range indexing merely
evaluates to `undefined`. -/
theorem useSelectedTags_never_fails (p : List Char) :
    ∃ r, useSelectedTags p = Except.ok r :=
  tagPair_ok _ (plus_mem_filterStringOf _)

/-- C4 counterexample: at the malformed input `"/x/a+b"` (segment `"a+b"`
contains `'+'` but no `lang:`/`topic:` prefixes) the function does NOT fail:
it returns the pair `(undefined, undefined)`. -/
theorem useSelectedTags_c4_counterexample :
    useSelectedTags "/x/a+b".data = Except.ok (none, none) := rfl

/-- C9: `useSelectedTags` decodes at most one URL-encoded space — only the
FIRST occurrence of `%20` in the pathname is replaced by a space before
splitting.  If the pathname is `p ++ "%20" ++ q` with no `%20` inside `p`,
the parse equals the replacement-free parse of `p ++ " " ++ q`, in which any
further `%20` sequences (inside `q`) survive verbatim into the returned
language/topic values. -/
theorem useSelectedTags_replaces_only_first_percent20 (p q : List Char)
    (h : contains20 p = false) :
    useSelectedTags (p ++ '%' :: '2' :: '0' :: q) = useSelectedTagsPost (p ++ ' ' :: q) := by
  rw [useSelectedTags, useSelectedTagsPost, replaceFirst20_append p q h]

/-- C9 witness: on `"/x/lang:a%20b+topic:c%20d"` the first `%20` becomes a
space while the second stays verbatim, so the result is `("a b", "c%20d")`. -/
theorem useSelectedTags_replaces_only_first_percent20_witness :
    contains20 "/x/lang:a".data = false ∧
      useSelectedTags "/x/lang:a%20b+topic:c%20d".data
        = Except.ok (some "a b".data, some "c%20d".data) :=
  ⟨by decide,
    (useSelectedTags_replaces_only_first_percent20 "/x/lang:a".data
      "b+topic:c%20d".data (by decide)).trans rfl⟩

/-! ## `useImages` (hooks file)

```js
export const useImages = (nodes, property = 'name') => {
  return useMemo(() => {
    const images = {};
    for (let i = 0; i < nodes.length; i++) {
      images[nodes[i][property]] = nodes[i].childImageSharp.gatsbyImageData;
    }
    return images;
  }, [nodes, property]);
};
```

A JS object is embedded as an insertion-ordered association list with no
duplicate keys: assignment `images[k] = v` overwrites in place when `k` is
present and appends otherwise (`objSet`), exactly the observable behaviour of
JS property assignment (`Object.keys` order, `Object.keys(o).length` size).
The `useMemo` wrapper only caches the computation and is dropped.  Dynamic
field access `nodes[i][property]` is embedded as a property-lookup function
on the node. -/

structure ChildImageSharp (V : Type) where
  gatsbyImageData : V

structure ImageNode (K V : Type) where
  props : String → K
  childImageSharp : ChildImageSharp V

/-- JS object property assignment `o[k] = v`. -/
def objSet {K V : Type} [DecidableEq K] : List (K × V) → K → V → List (K × V)
  | [], k, v => [(k, v)]
  | (k', v') :: rest, k, v =>
    if k' = k then (k', v) :: rest else (k', v') :: objSet rest k v

/-- JS object property read `o[k]` (`undefined` ↦ `none`). -/
def objLookup {K V : Type} [DecidableEq K] : List (K × V) → K → Option V
  | [], _ => none
  | (k', v') :: rest, k => if k' = k then some v' else objLookup rest k

/-- The loop body of `useImages`, iterated left to right over the nodes
(default `property = 'name'` at call sites). -/
def useImages {K V : Type} [DecidableEq K]
    (nodes : List (ImageNode K V)) (property : String) : List (K × V) :=
  nodes.foldl
    (fun images node =>
      objSet images (node.props property) node.childImageSharp.gatsbyImageData)
    []

theorem objLookup_objSet {K V : Type} [DecidableEq K]
    (m : List (K × V)) (k a : K) (v : V) :
    objLookup (objSet m k v) a = if k = a then some v else objLookup m a := by
  induction m with
  | nil =>
    by_cases h : k = a
    · simp [objSet, objLookup, h]
    · simp [objSet, objLookup, h]
  | cons p rest ih =>
    obtain ⟨k', v'⟩ := p
    by_cases h : k' = k
    · subst h
      rw [objSet, if_pos rfl]
      by_cases h2 : k' = a
      · rw [objLookup, if_pos h2, if_pos h2]
      · rw [objLookup, if_neg h2, if_neg h2, objLookup, if_neg h2]
    · rw [objSet, if_neg h]
      by_cases h2 : k' = a
      · subst h2
        rw [objLookup, if_pos rfl, objLookup, if_pos rfl, if_neg (fun hh => h hh.symm)]
      · rw [objLookup, if_neg h2, objLookup, if_neg h2, ih]

theorem objKeys_objSet {K V : Type} [DecidableEq K]
    (m : List (K × V)) (k a : K) (v : V) :
    a ∈ (objSet m k v).map Prod.fst ↔ a ∈ m.map Prod.fst ∨ a = k := by
  induction m with
  | nil => simp [objSet]
  | cons p rest ih =>
    obtain ⟨k', v'⟩ := p
    by_cases h : k' = k
    · subst h
      rw [objSet, if_pos rfl]
      simp only [List.map_cons, List.mem_cons]
      constructor
      · rintro (h | h)
        · exact Or.inl (Or.inl h)
        · exact Or.inl (Or.inr h)
      · rintro ((h | h) | h)
        · exact Or.inl h
        · exact Or.inr h
        · exact Or.inl h
    · rw [objSet, if_neg h]
      simp only [List.map_cons, List.mem_cons, ih]
      tauto

theorem objSet_not_mem {K V : Type} [DecidableEq K]
    (m : List (K × V)) (k : K) (v : V) (h : k ∉ m.map Prod.fst) :
    objSet m k v = m ++ [(k, v)] := by
  induction m with
  | nil => rfl
  | cons p rest ih =>
    obtain ⟨k', v'⟩ := p
    simp only [List.map_cons, List.mem_cons, not_or] at h
    rw [objSet, if_neg (fun hh => h.1 hh.symm), ih h.2, List.cons_append]

/-- Inner loop characterisation: lookup after the fold is the payload of the
LAST node carrying the key, falling back to the initial object. -/
theorem objLookup_foldl {K V : Type} [DecidableEq K]
    (nodes : List (ImageNode K V)) (property : String) (m : List (K × V)) (a : K) :
    objLookup
        (nodes.foldl
          (fun images node =>
            objSet images (node.props property) node.childImageSharp.gatsbyImageData)
          m) a =
      match nodes.reverse.find? (fun n => decide (n.props property = a)) with
      | some n => some n.childImageSharp.gatsbyImageData
      | none => objLookup m a := by
  induction nodes generalizing m with
  | nil => rfl
  | cons n ns ih =>
    rw [List.foldl_cons, ih, List.reverse_cons, List.find?_append]
    cases hfind : ns.reverse.find? (fun n => decide (n.props property = a)) with
    | some w => rfl
    | none =>
      rw [Option.none_or]
      by_cases hp : n.props property = a
      · rw [List.find?_cons_of_pos _ (by simp [hp]), objLookup_objSet, if_pos hp]
      · rw [List.find?_cons_of_neg _ (by simp [hp]), objLookup_objSet, if_neg hp]
        rfl

theorem objKeys_foldl {K V : Type} [DecidableEq K]
    (nodes : List (ImageNode K V)) (property : String) (m : List (K × V)) (a : K) :
    (a ∈ (nodes.foldl
        (fun images node =>
          objSet images (node.props property) node.childImageSharp.gatsbyImageData)
        m).map Prod.fst) ↔
      a ∈ m.map Prod.fst ∨ a ∈ nodes.map (fun n => n.props property) := by
  induction nodes generalizing m with
  | nil => simp
  | cons n ns ih =>
    rw [List.foldl_cons, ih]
    simp only [objKeys_objSet, List.map_cons, List.mem_cons]
    tauto

theorem length_foldl_of_nodup {K V : Type} [DecidableEq K]
    (nodes : List (ImageNode K V)) (property : String) (m : List (K × V))
    (hnd : (nodes.map (fun n => n.props property)).Nodup)
    (hdisj : ∀ a ∈ nodes.map (fun n => n.props property), a ∉ m.map Prod.fst) :
    (nodes.foldl
        (fun images node =>
          objSet images (node.props property) node.childImageSharp.gatsbyImageData)
        m).length = m.length + nodes.length := by
  induction nodes generalizing m with
  | nil => rfl
  | cons n ns ih =>
    simp only [List.map_cons, List.nodup_cons] at hnd
    have hnotm : n.props property ∉ m.map Prod.fst :=
      hdisj _ (by simp)
    rw [List.foldl_cons, objSet_not_mem _ _ _ hnotm,
      ih (m ++ [(n.props property, n.childImageSharp.gatsbyImageData)]) hnd.2]
    · simp only [List.length_append, List.length_cons, List.length_nil]
      omega
    · intro a ha
      simp only [List.map_append, List.mem_append, List.map_cons, List.map_nil,
        List.mem_cons, List.not_mem_nil, not_or] at *
      refine ⟨hdisj a (Or.inr ha), fun hak => ?_, fun hf => hf⟩
      exact hnd.1 (hak ▸ ha)

/-- C6: `useImages` (buildImageIndex) returns a mapping whose keys are exactly
the key-property values of the input nodes, whose value at each key is the
image payload of the LAST node carrying that key (duplicates silently
overwrite earlier entries, no error — the function is total), and whose size
equals the number of nodes whenever all keys are unique. -/
theorem useImages_spec {K V : Type} [DecidableEq K]
    (nodes : List (ImageNode K V)) (property : String) :
    (∀ k, k ∈ (useImages nodes property).map Prod.fst ↔
        k ∈ nodes.map (fun n => n.props property)) ∧
    (∀ k, objLookup (useImages nodes property) k =
        (nodes.reverse.find? (fun n => decide (n.props property = k))).map
          (fun n => n.childImageSharp.gatsbyImageData)) ∧
    ((nodes.map (fun n => n.props property)).Nodup →
        (useImages nodes property).length = nodes.length) := by
  refine ⟨fun k => ?_, fun k => ?_, fun hnd => ?_⟩
  · rw [useImages, objKeys_foldl]
    simp
  · rw [useImages, objLookup_foldl]
    cases nodes.reverse.find? (fun n => decide (n.props property = k)) <;> rfl
  · rw [useImages, length_foldl_of_nodup _ _ _ hnd (by simp)]
    simp

/-- C6 witness: on two nodes with distinct keys the index has exactly two
entries, keyed by both names, with the matching payloads. -/
theorem useImages_spec_witness :
    (useImages [⟨fun _ => "a", ⟨(10 : Nat)⟩⟩, ⟨fun _ => "b", ⟨20⟩⟩] "name").length = 2 :=
  (useImages_spec [⟨fun _ => "a", ⟨(10 : Nat)⟩⟩, ⟨fun _ => "b", ⟨20⟩⟩] "name").2.2
    (by decide)

/-! ## `update-yt.mjs`: the update step `updateYTDesc`

```js
const res = await service.videos.list({ part: ['snippet'], id: videoId });
const video = res.data.items[0];
const oldDescription = video.snippet.description;
if (oldDescription === newDescription) {
  console.log('Description is already up to date.');
  return;
}
const res2 = await service.videos.update({
  part: ['snippet'],
  requestBody: {
    id: videoId,
    snippet: {
      title: video.snippet.title,
      description: newDescription,
      categoryId: video.snippet.categoryId
    }
  }
});
```

The fetched `video.snippet` is the `Snippet` input; the result records the
console message together with the issued update request (`none` when no
update call is made). -/

structure Snippet where
  title : List Char
  description : List Char
  categoryId : List Char
deriving DecidableEq

structure RequestBody where
  id : List Char
  snippet : Snippet
deriving DecidableEq

/-- The decision logic of `updateYTDesc` after the `videos.list` fetch. -/
def updateYTDesc (videoId newDescription : List Char) (remote : Snippet) :
    String × Option RequestBody :=
  if remote.description = newDescription then
    ("Description is already up to date.", none)
  else
    ("Updated video description.",
      some ⟨videoId, ⟨remote.title, newDescription, remote.categoryId⟩⟩)

/-- C2: the idempotent short-circuit of `updateYTDesc` — it reports that the
description is already up to date and issues NO update call exactly when the
remote description equals the candidate new description; whenever the two
differ, an update call is issued. -/
theorem updateYTDesc_short_circuit (videoId newDescription : List Char)
    (remote : Snippet) :
    (updateYTDesc videoId newDescription remote
        = ("Description is already up to date.", none)
      ↔ remote.description = newDescription) ∧
    ((updateYTDesc videoId newDescription remote).2.isSome
      ↔ remote.description ≠ newDescription) := by
  by_cases h : remote.description = newDescription
  · rw [updateYTDesc, if_pos h]
    simp [h]
  · rw [updateYTDesc, if_neg h]
    refine ⟨⟨fun heq => absurd (congrArg Prod.snd heq) (by simp), fun hd => absurd hd h⟩,
      by simp [h]⟩

/-- C5: when `updateYTDesc` does issue the remote update call, the request
body's `title` and `categoryId` equal the values fetched from the current
remote snippet, its `description` is the new description and its `id` is the
video id — only the description changes. -/
theorem updateYTDesc_preserves_frame (videoId newDescription : List Char)
    (remote : Snippet) (h : remote.description ≠ newDescription) :
    ∃ req, (updateYTDesc videoId newDescription remote).2 = some req ∧
      req.snippet.title = remote.title ∧
      req.snippet.categoryId = remote.categoryId ∧
      req.snippet.description = newDescription ∧
      req.id = videoId := by
  rw [updateYTDesc, if_neg h]
  exact ⟨_, rfl, rfl, rfl, rfl, rfl⟩

/-- C5 witness: a concrete differing description triggers an update request
that copies title and category from the remote snippet. -/
theorem updateYTDesc_preserves_frame_witness :
    ("old".data : List Char) ≠ "new".data ∧
      ∃ req, (updateYTDesc "vid".data "new".data ⟨"T".data, "old".data, "22".data⟩).2
          = some req ∧
        req.snippet.title = "T".data ∧
        req.snippet.categoryId = "22".data ∧
        req.snippet.description = "new".data ∧
        req.id = "vid".data :=
  ⟨by decide,
    updateYTDesc_preserves_frame "vid".data "new".data
      ⟨"T".data, "old".data, "22".data⟩ (by decide)⟩

/-! ## `update-yt.mjs`: candidate discovery

```js
if (
  !fs.existsSync('_descriptions') ||
  fs.readdirSync('_descriptions').length === 0
) {
  console.log(
    'No generated descriptions available. Try generating them first by using the yt-desc script.'
  );
  return;
}
const videoIds = fs
  .readdirSync('_descriptions')
  .filter((f) => !f.endsWith('json'))
  .map((f) => f.split('.')[0].split('_').slice(1).join('_'));
```

The `_descriptions` directory is embedded as `Option (List (List Char))`:
`none` when the directory does not exist, otherwise the list of entry names. -/

/-- JS `f.endsWith('json')`. -/
def endsWithJson (f : List Char) : Bool := "json".data.isSuffixOf f

/-- JS `Array.prototype.join(c)` for a one-character separator. -/
def joinChar (c : Char) : List (List Char) → List Char
  | [] => []
  | [x] => x
  | x :: y :: xs => x ++ c :: joinChar c (y :: xs)

/-- JS `f.split('.')[0].split('_').slice(1).join('_')` — the video id
extracted from a description file name (`split` of a nonempty string is
nonempty, so the JS `[0]` is total and embeds as `getD 0`). -/
def extractId (f : List Char) : List Char :=
  joinChar '_' ((splitOnChar '_' ((splitOnChar '.' f).getD 0 [])).drop 1)

/-- The `videoIds` array of `main`. -/
def videoIdsOf (entries : List (List Char)) : List (List Char) :=
  (entries.filter (fun f => !(endsWithJson f))).map extractId

/-- Outcome of the discovery step: either the fatal early return (before any
prompt or remote call) or the list of candidate video ids handed to the rest
of `main`. -/
inductive DiscoverResult where
  | fatal (msg : String)
  | proceed (videoIds : List (List Char))
deriving DecidableEq

/-- The guard plus `videoIds` computation of `main` (lines 169-182). -/
def discoverCandidates (dir : Option (List (List Char))) : DiscoverResult :=
  match dir with
  | none =>
    .fatal "No generated descriptions available. Try generating them first by using the yt-desc script."
  | some entries =>
    if entries.length = 0 then
      .fatal "No generated descriptions available. Try generating them first by using the yt-desc script."
    else
      .proceed (videoIdsOf entries)

/-- The generated description files in the directory: the non-`json` entries
(the code's own candidate filter). -/
def descriptionFilesOf (dir : Option (List (List Char))) : List (List Char) :=
  match dir with
  | none => []
  | some entries => entries.filter (fun f => !(endsWithJson f))

/-- C8 counterexample: a directory containing only `metadata.json` has NO
generated description files, yet the guard does not fire — discovery
proceeds (towards the track prompt) with an empty candidate list instead of
failing fatally. -/
theorem discoverCandidates_c8_counterexample :
    descriptionFilesOf (some ["metadata.json".data]) = [] ∧
      discoverCandidates (some ["metadata.json".data]) = .proceed [] := by
  constructor <;> rfl

/-- C8 (amended): the updater fails fatally with the user-facing message —
before any track/video selection or remote call — exactly when the
`_descriptions` directory is missing or has no entries at all; the guard
tests directory emptiness, not the presence of description files. -/
theorem discoverCandidates_fatal_iff (dir : Option (List (List Char))) :
    (∃ msg, discoverCandidates dir = .fatal msg) ↔ (dir = none ∨ dir = some []) := by
  cases dir with
  | none => simp [discoverCandidates]
  | some entries =>
    rw [discoverCandidates]
    by_cases h : entries.length = 0
    · rw [if_pos h, List.length_eq_zero.mp h]
      simp
    · rw [if_neg h]
      constructor
      · rintro ⟨msg, hmsg⟩
        exact DiscoverResult.noConfusion hmsg
      · rintro (hd | hd)
        · exact Option.noConfusion hd
        · exact absurd (by rw [Option.some.inj hd]; rfl) h

/-! ## `update-yt.mjs`: track index

```js
const videos = metadata.videos.filter((x) => videoIds.includes(x.videoId));
const tracks = metadata.tracks
  .map((track) => {
    track.videos = videos.filter(
      (video) => video.canonicalTrack === track.slug
    );
    return track;
  })
  .filter((track) => track.videos.length > 0);
const challengeVideos = videos.filter((video) =>
  video.canonicalURL.startsWith('challenges')
);
if (challengeVideos.length > 0) {
  tracks.push({
    slug: 'challenges',
    title: 'Coding Challenges',
    videos: challengeVideos
  });
}
```
-/

structure VideoMeta where
  slug : List Char
  videoId : List Char
  title : List Char
  canonicalTrack : List Char
  canonicalURL : List Char
deriving DecidableEq

structure TrackMeta where
  slug : List Char
  title : List Char
deriving DecidableEq

structure Track where
  slug : List Char
  title : List Char
  videos : List VideoMeta
deriving DecidableEq

/-- `metadata.videos.filter((x) => videoIds.includes(x.videoId))`. -/
def candidateVideos (entries : List (List Char)) (metaVideos : List VideoMeta) :
    List VideoMeta :=
  metaVideos.filter (fun x => (videoIdsOf entries).contains x.videoId)

/-- The metadata-derived tracks that survive the `length > 0` filter. -/
def keptMetaTracks (metaTracks : List TrackMeta) (videos : List VideoMeta) :
    List Track :=
  (metaTracks.map (fun track =>
      Track.mk track.slug track.title
        (videos.filter (fun video => video.canonicalTrack == track.slug)))).filter
    (fun track => decide (0 < track.videos.length))

/-- `videos.filter((video) => video.canonicalURL.startsWith('challenges'))`. -/
def challengeVideosOf (videos : List VideoMeta) : List VideoMeta :=
  videos.filter (fun video => "challenges".data.isPrefixOf video.canonicalURL)

/-- The full track list offered by the track prompt, with the synthetic
Challenges track pushed at the end when nonempty. -/
def buildTracks (metaTracks : List TrackMeta) (videos : List VideoMeta) :
    List Track :=
  if 0 < (challengeVideosOf videos).length then
    keptMetaTracks metaTracks videos ++
      [Track.mk "challenges".data "Coding Challenges".data (challengeVideosOf videos)]
  else
    keptMetaTracks metaTracks videos

theorem videos_subset_of_mem_keptMetaTracks (metaTracks : List TrackMeta)
    (videos : List VideoMeta) (t : Track) (ht : t ∈ keptMetaTracks metaTracks videos)
    (v : VideoMeta) (hv : v ∈ t.videos) : v ∈ videos := by
  have ht2 := (List.mem_filter.mp ht).1
  obtain ⟨tm, _, rfl⟩ := List.mem_map.mp ht2
  exact (List.mem_filter.mp hv).1

theorem videos_subset_of_mem_buildTracks (metaTracks : List TrackMeta)
    (videos : List VideoMeta) (t : Track) (ht : t ∈ buildTracks metaTracks videos)
    (v : VideoMeta) (hv : v ∈ t.videos) : v ∈ videos := by
  rw [buildTracks] at ht
  by_cases hch : 0 < (challengeVideosOf videos).length
  · rw [if_pos hch] at ht
    rcases List.mem_append.mp ht with hk | hc
    · exact videos_subset_of_mem_keptMetaTracks _ _ _ hk _ hv
    · rw [List.mem_singleton.mp hc] at hv
      exact (List.mem_filter.mp hv).1
  · rw [if_neg hch] at ht
    exact videos_subset_of_mem_keptMetaTracks _ _ _ ht _ hv

/-- C7: every kept track offered for selection has at least one video
(metadata tracks with zero matching candidate videos are dropped); every
candidate video whose canonical URL starts with `challenges` appears in an
offered track with slug `challenges` and title `Coding Challenges`; and when
no such video exists, no synthetic Challenges track is added — the offered
list is exactly the kept metadata tracks. -/
theorem buildTracks_spec (metaTracks : List TrackMeta) (videos : List VideoMeta) :
    (∀ t ∈ buildTracks metaTracks videos, t.videos ≠ []) ∧
    (∀ v ∈ videos, "challenges".data.isPrefixOf v.canonicalURL = true →
      ∃ t ∈ buildTracks metaTracks videos,
        t.slug = "challenges".data ∧ t.title = "Coding Challenges".data ∧
          v ∈ t.videos) ∧
    (challengeVideosOf videos = [] →
      buildTracks metaTracks videos = keptMetaTracks metaTracks videos) := by
  refine ⟨fun t ht => ?_, fun v hv hch => ?_, fun hnone => ?_⟩
  · rw [buildTracks] at ht
    have hkept : ∀ t' ∈ keptMetaTracks metaTracks videos, t'.videos ≠ [] := by
      intro t' ht'
      have := of_decide_eq_true (List.mem_filter.mp ht').2
      exact List.ne_nil_of_length_pos this
    by_cases hc : 0 < (challengeVideosOf videos).length
    · rw [if_pos hc] at ht
      rcases List.mem_append.mp ht with hk | hs
      · exact hkept t hk
      · rw [List.mem_singleton.mp hs]
        exact List.ne_nil_of_length_pos hc
    · rw [if_neg hc] at ht
      exact hkept t ht
  · have hvch : v ∈ challengeVideosOf videos := List.mem_filter.mpr ⟨hv, hch⟩
    have hpos : 0 < (challengeVideosOf videos).length :=
      List.length_pos.mpr (List.ne_nil_of_mem hvch)
    refine ⟨Track.mk "challenges".data "Coding Challenges".data (challengeVideosOf videos),
      ?_, rfl, rfl, hvch⟩
    rw [buildTracks, if_pos hpos]
    exact List.mem_append_right _ (List.mem_cons_self _ _)
  · rw [buildTracks, if_neg (by rw [hnone]; simp)]

/-- C7 witness: a single challenge video with no metadata tracks yields the
synthetic Challenges track containing it. -/
theorem buildTracks_spec_witness :
    (VideoMeta.mk "s".data "id1".data "T".data "trk".data "challenges/foo".data
        ∈ [VideoMeta.mk "s".data "id1".data "T".data "trk".data "challenges/foo".data]) ∧
      ∃ t ∈ buildTracks ([] : List TrackMeta)
          [VideoMeta.mk "s".data "id1".data "T".data "trk".data "challenges/foo".data],
        t.slug = "challenges".data ∧ t.title = "Coding Challenges".data ∧
          VideoMeta.mk "s".data "id1".data "T".data "trk".data "challenges/foo".data
            ∈ t.videos :=
  ⟨List.mem_cons_self _ _,
    (buildTracks_spec [] _).2.1 _ (List.mem_cons_self _ _) (by decide)⟩

/-- C10: a candidate video whose canonical URL starts with `challenges` and
whose `canonicalTrack` equals the slug of a metadata track is listed BOTH
under that metadata track (which survives the nonempty filter) and in the
synthetic Challenges track appended at the end, so the same video is offered
from two different track menus. -/
theorem buildTracks_both_menus (metaTracks : List TrackMeta) (videos : List VideoMeta)
    (v : VideoMeta) (t0 : TrackMeta)
    (hv : v ∈ videos)
    (hch : "challenges".data.isPrefixOf v.canonicalURL = true)
    (ht0 : t0 ∈ metaTracks)
    (htr : v.canonicalTrack = t0.slug) :
    buildTracks metaTracks videos
        = keptMetaTracks metaTracks videos ++
          [Track.mk "challenges".data "Coding Challenges".data (challengeVideosOf videos)] ∧
    (∃ t ∈ keptMetaTracks metaTracks videos,
        t.slug = t0.slug ∧ t.title = t0.title ∧ v ∈ t.videos) ∧
    v ∈ challengeVideosOf videos := by
  have hvch : v ∈ challengeVideosOf videos := List.mem_filter.mpr ⟨hv, hch⟩
  have hpos : 0 < (challengeVideosOf videos).length :=
    List.length_pos.mpr (List.ne_nil_of_mem hvch)
  have hvt0 : v ∈ videos.filter (fun video => video.canonicalTrack == t0.slug) :=
    List.mem_filter.mpr ⟨hv, beq_iff_eq.mpr htr⟩
  refine ⟨by rw [buildTracks, if_pos hpos], ?_, hvch⟩
  refine ⟨Track.mk t0.slug t0.title
    (videos.filter (fun video => video.canonicalTrack == t0.slug)), ?_, rfl, rfl, hvt0⟩
  refine List.mem_filter.mpr ⟨List.mem_map.mpr ⟨t0, ht0, rfl⟩, ?_⟩
  exact decide_eq_true (List.length_pos.mpr (List.ne_nil_of_mem hvt0))

/-- C10 witness: a concrete video under both its metadata track and the
synthetic Challenges track. -/
theorem buildTracks_both_menus_witness :
    ("challenges".data.isPrefixOf "challenges/foo".data = true) ∧
      ((VideoMeta.mk "s".data "id1".data "T".data "trk".data "challenges/foo".data).canonicalTrack
        = (TrackMeta.mk "trk".data "Trk".data).slug) ∧
      ((∃ t ∈ keptMetaTracks [TrackMeta.mk "trk".data "Trk".data]
            [VideoMeta.mk "s".data "id1".data "T".data "trk".data "challenges/foo".data],
          t.slug = "trk".data ∧ t.title = "Trk".data ∧
            VideoMeta.mk "s".data "id1".data "T".data "trk".data "challenges/foo".data
              ∈ t.videos) ∧
        VideoMeta.mk "s".data "id1".data "T".data "trk".data "challenges/foo".data
          ∈ challengeVideosOf
            [VideoMeta.mk "s".data "id1".data "T".data "trk".data "challenges/foo".data]) :=
  ⟨by decide, by decide,
    (buildTracks_both_menus [TrackMeta.mk "trk".data "Trk".data]
      [VideoMeta.mk "s".data "id1".data "T".data "trk".data "challenges/foo".data]
      (VideoMeta.mk "s".data "id1".data "T".data "trk".data "challenges/foo".data)
      (TrackMeta.mk "trk".data "Trk".data)
      (List.mem_cons_self _ _) (by decide) (List.mem_cons_self _ _) rfl).2⟩

/-! ## C3: offered videos have their description file on disk

The file later read for the chosen video is
`_descriptions/${video.slug}_${video.videoId}.txt`. -/

/-- The description file name `${slug}_${videoId}.txt` of a video. -/
def descriptionFileName (w : VideoMeta) : List Char :=
  w.slug ++ '_' :: (w.videoId ++ ".txt".data)

theorem joinChar_splitOnChar (c : Char) (l : List Char) :
    joinChar c (splitOnChar c l) = l := by
  induction l with
  | nil => rfl
  | cons d ds ih =>
    rw [splitOnChar]
    by_cases h : d = c
    · subst h
      rw [if_pos rfl]
      cases hsp : splitOnChar d ds with
      | nil => exact absurd hsp (splitOnChar_ne_nil d ds)
      | cons t ts =>
        rw [hsp] at ih
        rw [joinChar, List.nil_append, ih]
    · rw [if_neg h]
      cases hsp : splitOnChar c ds with
      | nil => exact absurd hsp (splitOnChar_ne_nil c ds)
      | cons t ts =>
        rw [hsp] at ih
        cases ts with
        | nil =>
          simp only [joinChar] at ih ⊢
          rw [ih]
        | cons u us =>
          rw [joinChar] at ih ⊢
          rw [List.cons_append, ih]

/-- The filename parse inverts the filename build, provided the slug contains
no `'.'` or `'_'` and the video id contains no `'.'`. -/
theorem extractId_descriptionFileName (w : VideoMeta)
    (h1 : '.' ∉ w.slug) (h2 : '_' ∉ w.slug) (h3 : '.' ∉ w.videoId) :
    extractId (descriptionFileName w) = w.videoId := by
  have hshape : descriptionFileName w
      = (w.slug ++ '_' :: w.videoId) ++ '.' :: "txt".data := by
    rw [descriptionFileName, List.append_assoc]
    rfl
  have hdot : '.' ∉ w.slug ++ '_' :: w.videoId :=
    not_mem_append_of h1 (not_mem_cons_of (by decide) h3)
  rw [extractId, hshape, splitOnChar_append _ _ _ hdot,
    splitOnChar_not_mem _ _ (by decide : '.' ∉ "txt".data)]
  show joinChar '_' ((splitOnChar '_' (w.slug ++ '_' :: w.videoId)).drop 1) = w.videoId
  rw [splitOnChar_append _ _ _ h2]
  show joinChar '_' (splitOnChar '_' w.videoId) = w.videoId
  exact joinChar_splitOnChar _ _

/-- Modelled from the spec: the description-file generation step (the
`yt-desc` script, which is not among the sources here) produces the files of
the `_descriptions` directory, each keyed `<slug>_<videoId>.txt` for a video
of the metadata catalog; the only other entry is the `json` metadata file. -/
def generatedFrom (metaVideos : List VideoMeta) (entries : List (List Char)) : Prop :=
  ∀ f ∈ entries, endsWithJson f = false →
    ∃ w ∈ metaVideos, f = descriptionFileName w

instance (metaVideos : List VideoMeta) (entries : List (List Char)) :
    Decidable (generatedFrom metaVideos entries) := by
  unfold generatedFrom
  infer_instance

/-- C3: every video offered in the interactive video prompt (a video of a
track of the built track index) has its generated description file
`<slug>_<videoId>.txt` among the directory entries, so the subsequent read
for the chosen video cannot fail.  Assumes the directory was produced by the
generation step (`generatedFrom`, modelled from the spec) and the catalog is
well formed: slugs contain no `'.'`/`'_'`, video ids contain no `'.'`, and a
video id determines its slug. -/
theorem offered_video_has_description_file
    (entries : List (List Char)) (metaVideos : List VideoMeta)
    (metaTracks : List TrackMeta) (t : Track) (v : VideoMeta)
    (hgen : generatedFrom metaVideos entries)
    (hslugDot : ∀ w ∈ metaVideos, '.' ∉ w.slug)
    (hslugUs : ∀ w ∈ metaVideos, '_' ∉ w.slug)
    (hvidDot : ∀ w ∈ metaVideos, '.' ∉ w.videoId)
    (huniq : ∀ w ∈ metaVideos, ∀ w' ∈ metaVideos,
      w.videoId = w'.videoId → w.slug = w'.slug)
    (ht : t ∈ buildTracks metaTracks (candidateVideos entries metaVideos))
    (hv : v ∈ t.videos) :
    descriptionFileName v ∈ entries := by
  have hvcand : v ∈ candidateVideos entries metaVideos :=
    videos_subset_of_mem_buildTracks _ _ _ ht _ hv
  have hvmeta : v ∈ metaVideos := (List.mem_filter.mp hvcand).1
  have hvid : v.videoId ∈ videoIdsOf entries :=
    List.elem_iff.mp (List.mem_filter.mp hvcand).2
  obtain ⟨f, hf, hfid⟩ := List.mem_map.mp hvid
  have hfent : f ∈ entries := (List.mem_filter.mp hf).1
  have hfjson : endsWithJson f = false := by
    have := (List.mem_filter.mp hf).2
    simpa using this
  obtain ⟨w, hwmeta, rfl⟩ := hgen f hfent hfjson
  have hwid : w.videoId = v.videoId := by
    rw [← hfid,
      extractId_descriptionFileName w (hslugDot w hwmeta) (hslugUs w hwmeta)
        (hvidDot w hwmeta)]
  have hwslug : w.slug = v.slug := huniq w hwmeta v hvmeta hwid
  have : descriptionFileName w = descriptionFileName v := by
    rw [descriptionFileName, descriptionFileName, hwid, hwslug]
  rw [← this]
  exact hfent

/-- C3 witness: a concrete generated directory and catalog where the offered
video's description file is present. -/
theorem offered_video_has_description_file_witness :
    generatedFrom
        [VideoMeta.mk "s".data "id1".data "T".data "trk".data "challenges/foo".data]
        ["s_id1.txt".data, "metadata.json".data] ∧
      descriptionFileName
          (VideoMeta.mk "s".data "id1".data "T".data "trk".data "challenges/foo".data)
        ∈ ["s_id1.txt".data, "metadata.json".data] :=
  ⟨by decide,
    offered_video_has_description_file
      ["s_id1.txt".data, "metadata.json".data]
      [VideoMeta.mk "s".data "id1".data "T".data "trk".data "challenges/foo".data]
      [TrackMeta.mk "trk".data "Trk".data]
      (Track.mk "trk".data "Trk".data
        [VideoMeta.mk "s".data "id1".data "T".data "trk".data "challenges/foo".data])
      (VideoMeta.mk "s".data "id1".data "T".data "trk".data "challenges/foo".data)
      (by decide) (by decide) (by decide) (by decide) (by decide)
      (by decide) (by decide)⟩

end CodingTrain
